import Mathlib

/-!
Shallow embedding of `main.py` (class `PlanoDeCorte`): a Gomory cutting-plane
loop over an external LP relaxation solver.  Real-valued data is modelled by
`ℚ`; numpy arrays by lists; `scipy.optimize.linprog` by an abstract solver
function supplied per run; the unbounded `while True` loop by explicit fuel.
-/

/-- The tolerance `1e-5` used by `es_entero` and by the fractional-index scan. -/
def eps : ℚ := 1 / 100000

/-- Fractional part `v - np.floor(v)`. -/
def fr (v : ℚ) : ℚ := v - ⌊v⌋

/-- Embedding of `np.round` at integer precision: round half to even (banker's rounding). -/
def npRound (v : ℚ) : ℤ :=
  if fr v < 1 / 2 then ⌊v⌋
  else if 1 / 2 < fr v then ⌊v⌋ + 1
  else if 2 ∣ ⌊v⌋ then ⌊v⌋ else ⌊v⌋ + 1

/-- Embedding of `es_entero`: `np.all(np.abs(solucion - np.round(solucion)) < 1e-5)`. -/
def es_entero (solucion : List ℚ) : Prop :=
  ∀ v ∈ solucion, |v - (npRound v : ℚ)| < eps

instance (solucion : List ℚ) : Decidable (es_entero solucion) :=
  inferInstanceAs (Decidable (∀ v ∈ solucion, |v - (npRound v : ℚ)| < eps))

/-- The fractional-index scan of `resolver` (lines 52-59): iterate over the
components, tracking `max_frac` (initially `-1`) and the chosen index
(initially the sentinel `-1`); update whenever the fractional part exceeds
`1e-5` and strictly exceeds the running maximum. -/
def selectAux : List ℚ → ℕ → ℚ → ℤ → ℤ
  | [], _, _, idx => idx
  | v :: t, i, maxFrac, idx =>
    if eps < fr v then
      if maxFrac < fr v then selectAux t (i + 1) (fr v) (i : ℤ)
      else selectAux t (i + 1) maxFrac idx
    else selectAux t (i + 1) maxFrac idx

/-- Value of `fila_fraccionaria_idx` after the scan: start from `max_frac = -1`,
`fila_fraccionaria_idx = -1`. -/
def selectIdx (solucion : List ℚ) : ℤ := selectAux solucion 0 (-1) (-1)

/-- Square-matrix view of a list-of-rows matrix, with an explicit dimension. -/
def matG (A : List (List ℚ)) (k : ℕ) : Matrix (Fin k) (Fin k) ℚ :=
  fun a b => (A.getD a []).getD b 0

/-- Inverse of a `k × k` list matrix, computed through the adjugate. -/
def matInvAux (k : ℕ) (A : List (List ℚ)) : Option (List (List ℚ)) :=
  if (matG A k).det ≠ 0 then
    some ((List.finRange k).map fun a =>
      (List.finRange k).map fun b => ((matG A k).det⁻¹ • (matG A k).adjugate) a b)
  else none

/-- Embedding of `np.linalg.inv(self.A)`: defined exactly when `A` is square with nonzero
determinant; raising `LinAlgError` is modelled by `none`. -/
def matInv (A : List (List ℚ)) : Option (List (List ℚ)) :=
  if A.all (fun r => r.length = A.length) then matInvAux A.length A else none

/-- The object state of `PlanoDeCorte.__init__`. -/
structure PlanoDeCorte where
  c : List ℚ
  A : List (List ℚ)
  b : List ℚ
  iteracion : ℕ
deriving DecidableEq

/-- Outcome of one `linprog` call: `resultado.success` together with
`resultado.x` and `resultado.fun` on success. -/
inductive SolverResult where
  | success (x : List ℚ) (fval : ℚ)
  | failure
deriving DecidableEq

/-- The external LP relaxation solver, a function of `(c, A, b)`. -/
def Solver : Type := List ℚ → List (List ℚ) → List ℚ → SolverResult

/-- One pass of the `while True` loop of `resolver`, with fuel: `none` means
the fuel ran out; `some (st, none)` is the `return None` exit; and
`some (st, some (x, obj))` is a success return of `(solucion, -resultado.fun)`,
paired in each case with the final object state. -/
def resolverAux (solver : Solver) : ℕ → PlanoDeCorte → Option (PlanoDeCorte × Option (List ℚ × ℚ))
  | 0, _ => none
  | fuel + 1, st =>
    match solver st.c st.A st.b with
    | SolverResult.failure => some ({ st with iteracion := st.iteracion + 1 }, none)
    | SolverResult.success solucion fval =>
      if es_entero solucion then
        some ({ st with iteracion := st.iteracion + 1 }, some (solucion, -fval))
      else if selectIdx solucion = -1 then
        some ({ st with iteracion := st.iteracion + 1 }, some (solucion, -fval))
      else
        match matInv st.A with
        | none => some ({ st with iteracion := st.iteracion + 1 }, none)
        | some T =>
          let i := (selectIdx solucion).toNat
          let tableauFila := T.getD i []
          let parteFraccionariaCoef := tableauFila.map fr
          let corte := parteFraccionariaCoef.map Neg.neg
          let nuevoB := -(fr (solucion.getD i 0))
          resolverAux solver fuel
            ⟨st.c, st.A ++ [corte], st.b ++ [nuevoB], st.iteracion + 1⟩

/-- The value returned by `PlanoDeCorte.resolver`. -/
def resolver (solver : Solver) (fuel : ℕ) (st : PlanoDeCorte) :
    Option (Option (List ℚ × ℚ)) :=
  (resolverAux solver fuel st).map Prod.snd

/- ### Basic facts about `fr` and `npRound` -/

theorem fr_nonneg (v : ℚ) : 0 ≤ fr v := by
  have := Int.floor_le v
  simp only [fr]
  linarith

theorem fr_lt_one (v : ℚ) : fr v < 1 := by
  have := Int.lt_floor_add_one v
  simp only [fr]
  linarith

/-- The distance from `v` to `np.round(v)` is the distance to the nearest
integer, `min (fr v) (1 - fr v)`. -/
theorem npRound_dist_eq (v : ℚ) : |v - (npRound v : ℚ)| = min (fr v) (1 - fr v) := by
  have h0 := fr_nonneg v
  have h1 := fr_lt_one v
  have hv : v - (⌊v⌋ : ℚ) = fr v := by simp [fr]
  have hlo : |v - ((⌊v⌋ : ℚ))| = fr v := by
    rw [abs_of_nonneg (by linarith [hv.symm.le]), hv]
  have hhi : |v - ((⌊v⌋ : ℚ) + 1)| = 1 - fr v := by
    rw [show v - ((⌊v⌋ : ℚ) + 1) = -(1 - (v - (⌊v⌋ : ℚ))) by ring, abs_neg,
      abs_of_nonneg (by linarith), hv]
  rcases lt_trichotomy (fr v) (1 / 2) with h | h | h
  · rw [show npRound v = ⌊v⌋ by rw [npRound, if_pos h], hlo,
      min_eq_left (by linarith)]
  · by_cases hd : 2 ∣ ⌊v⌋
    · rw [show npRound v = ⌊v⌋ by
        rw [npRound, if_neg (by linarith), if_neg (by linarith), if_pos hd], hlo]
      rw [h, min_eq_left (by linarith)]
    · rw [show npRound v = ⌊v⌋ + 1 by
        rw [npRound, if_neg (by linarith), if_neg (by linarith), if_neg hd]]
      push_cast
      rw [hhi, h, min_eq_right (by linarith)]
  · rw [show npRound v = ⌊v⌋ + 1 by rw [npRound, if_neg (by linarith), if_pos h]]
    push_cast
    rw [hhi, min_eq_right (by linarith)]

/-- Every integer is at distance at least `min (fr v) (1 - fr v)` from `v`. -/
theorem int_dist_ge (v : ℚ) (n : ℤ) : min (fr v) (1 - fr v) ≤ |v - (n : ℚ)| := by
  have h0 := fr_nonneg v
  have h1 := fr_lt_one v
  have hfl := Int.floor_le v
  have hfu := Int.lt_floor_add_one v
  rcases le_or_lt (n : ℚ) (⌊v⌋ : ℚ) with h | h
  · have : fr v ≤ v - n := by simp only [fr]; linarith
    calc min (fr v) (1 - fr v) ≤ fr v := min_le_left _ _
    _ ≤ |v - (n : ℚ)| := le_trans this (le_abs_self _)
  · have hn : (⌊v⌋ : ℚ) + 1 ≤ (n : ℚ) := by exact_mod_cast Int.add_one_le_of_lt (by exact_mod_cast h)
    have : 1 - fr v ≤ (n : ℚ) - v := by simp only [fr]; linarith
    calc min (fr v) (1 - fr v) ≤ 1 - fr v := min_le_right _ _
    _ ≤ (n : ℚ) - v := this
    _ ≤ |v - (n : ℚ)| := by rw [abs_sub_comm]; exact le_abs_self _

/-- The function `npRound` produces a nearest integer. -/
theorem npRound_dist_le (v : ℚ) (n : ℤ) : |v - (npRound v : ℚ)| ≤ |v - (n : ℚ)| := by
  rw [npRound_dist_eq]; exact int_dist_ge v n

theorem npRound_dist_le_fr (v : ℚ) : |v - (npRound v : ℚ)| ≤ fr v := by
  rw [npRound_dist_eq]; exact min_le_left _ _

/- ### Characterization of the fractional-index scan -/

/-- Invariant characterization of `selectAux`: either no element triggers an
update (every fractional part is within tolerance or bounded by the incoming
running maximum) and the incoming index is returned, or the result points at
the first element attaining the maximal fractional part among those exceeding
both the tolerance and the incoming maximum. -/
theorem selectAux_spec (x : List ℚ) : ∀ (i : ℕ) (m : ℚ) (idx : ℤ),
    (selectAux x i m idx = idx ∧
      ∀ k, k < x.length → (fr (x.getD k 0) ≤ eps ∨ fr (x.getD k 0) ≤ m))
    ∨ (∃ j, j < x.length ∧ selectAux x i m idx = (i : ℤ) + (j : ℤ) ∧
        eps < fr (x.getD j 0) ∧ m < fr (x.getD j 0) ∧
        (∀ k, k < x.length →
          fr (x.getD k 0) ≤ eps ∨ fr (x.getD k 0) ≤ m ∨
            fr (x.getD k 0) ≤ fr (x.getD j 0)) ∧
        (∀ k, k < j →
          fr (x.getD k 0) ≤ eps ∨ fr (x.getD k 0) ≤ m ∨
            fr (x.getD k 0) < fr (x.getD j 0))) := by
  induction x with
  | nil =>
    intro i m idx
    exact Or.inl ⟨rfl, fun k hk => absurd hk (by simp)⟩
  | cons v t ih =>
    intro i m idx
    by_cases h1 : eps < fr v
    · by_cases h2 : m < fr v
      · have hstep : selectAux (v :: t) i m idx = selectAux t (i + 1) (fr v) (i : ℤ) := by
          rw [selectAux, if_pos h1, if_pos h2]
        rcases ih (i + 1) (fr v) (i : ℤ) with ⟨heq, hall⟩ | ⟨j, hj, heq, hε, hm, hglob, hearl⟩
        · refine Or.inr ⟨0, by simp, ?_, ?_, ?_, ?_, ?_⟩
          · rw [hstep, heq]; push_cast; ring
          · simpa using h1
          · simpa using h2
          · intro k hk
            match k with
            | 0 => simp
            | k' + 1 =>
              rcases hall k' (by simpa using hk) with h | h
              · exact Or.inl (by simpa using h)
              · exact Or.inr (Or.inr (by simpa using h))
          · intro k hk; omega
        · refine Or.inr ⟨j + 1, by simpa using hj, ?_, by simpa using hε, ?_, ?_, ?_⟩
          · rw [hstep, heq]; push_cast; ring
          · simpa using lt_trans h2 hm
          · intro k hk
            match k with
            | 0 => exact Or.inr (Or.inr (by simpa using hm.le))
            | k' + 1 =>
              rcases hglob k' (by simpa using hk) with h | h | h
              · exact Or.inl (by simpa using h)
              · exact Or.inr (Or.inr (by simpa using le_trans h hm.le))
              · exact Or.inr (Or.inr (by simpa using h))
          · intro k hk
            match k with
            | 0 => exact Or.inr (Or.inr (by simpa using hm))
            | k' + 1 =>
              rcases hearl k' (by omega) with h | h | h
              · exact Or.inl (by simpa using h)
              · exact Or.inr (Or.inr (by simpa using lt_of_le_of_lt h hm))
              · exact Or.inr (Or.inr (by simpa using h))
      · have hstep : selectAux (v :: t) i m idx = selectAux t (i + 1) m idx := by
          rw [selectAux, if_pos h1, if_neg h2]
        rcases ih (i + 1) m idx with ⟨heq, hall⟩ | ⟨j, hj, heq, hε, hm, hglob, hearl⟩
        · refine Or.inl ⟨by rw [hstep, heq], ?_⟩
          intro k hk
          match k with
          | 0 => exact Or.inr (by simpa using not_lt.mp h2)
          | k' + 1 =>
            rcases hall k' (by simpa using hk) with h | h
            · exact Or.inl (by simpa using h)
            · exact Or.inr (by simpa using h)
        · refine Or.inr ⟨j + 1, by simpa using hj, ?_, by simpa using hε,
            by simpa using hm, ?_, ?_⟩
          · rw [hstep, heq]; push_cast; ring
          · intro k hk
            match k with
            | 0 => exact Or.inr (Or.inl (by simpa using not_lt.mp h2))
            | k' + 1 =>
              rcases hglob k' (by simpa using hk) with h | h | h
              · exact Or.inl (by simpa using h)
              · exact Or.inr (Or.inl (by simpa using h))
              · exact Or.inr (Or.inr (by simpa using h))
          · intro k hk
            match k with
            | 0 => exact Or.inr (Or.inl (by simpa using not_lt.mp h2))
            | k' + 1 =>
              rcases hearl k' (by omega) with h | h | h
              · exact Or.inl (by simpa using h)
              · exact Or.inr (Or.inl (by simpa using h))
              · exact Or.inr (Or.inr (by simpa using h))
    · have hstep : selectAux (v :: t) i m idx = selectAux t (i + 1) m idx := by
        rw [selectAux, if_neg h1]
      rcases ih (i + 1) m idx with ⟨heq, hall⟩ | ⟨j, hj, heq, hε, hm, hglob, hearl⟩
      · refine Or.inl ⟨by rw [hstep, heq], ?_⟩
        intro k hk
        match k with
        | 0 => exact Or.inl (by simpa using not_lt.mp h1)
        | k' + 1 =>
          rcases hall k' (by simpa using hk) with h | h
          · exact Or.inl (by simpa using h)
          · exact Or.inr (by simpa using h)
      · refine Or.inr ⟨j + 1, by simpa using hj, ?_, by simpa using hε,
          by simpa using hm, ?_, ?_⟩
        · rw [hstep, heq]; push_cast; ring
        · intro k hk
          match k with
          | 0 => exact Or.inl (by simpa using not_lt.mp h1)
          | k' + 1 =>
            rcases hglob k' (by simpa using hk) with h | h | h
            · exact Or.inl (by simpa using h)
            · exact Or.inr (Or.inl (by simpa using h))
            · exact Or.inr (Or.inr (by simpa using h))
        · intro k hk
          match k with
          | 0 => exact Or.inl (by simpa using not_lt.mp h1)
          | k' + 1 =>
            rcases hearl k' (by omega) with h | h | h
            · exact Or.inl (by simpa using h)
            · exact Or.inr (Or.inl (by simpa using h))
            · exact Or.inr (Or.inr (by simpa using h))

/-- If the scan returns the sentinel `-1`, every fractional part is within
tolerance. -/
theorem selectIdx_sentinel (x : List ℚ) (h : selectIdx x = -1) :
    ∀ k, k < x.length → fr (x.getD k 0) ≤ eps := by
  rcases selectAux_spec x 0 (-1) (-1) with ⟨_, hall⟩ | ⟨j, hj, heq, hε, _, _, _⟩
  · intro k hk
    rcases hall k hk with hle | hle
    · exact hle
    · exact absurd hle (by have := fr_nonneg (x.getD k 0); intro hc; linarith)
  · intro k hk
    rw [selectIdx] at h
    omega

/-- If every fractional part is within tolerance, the scan returns the
sentinel `-1`. -/
theorem selectIdx_sentinel_of (x : List ℚ)
    (h : ∀ k, k < x.length → fr (x.getD k 0) ≤ eps) : selectIdx x = -1 := by
  rcases selectAux_spec x 0 (-1) (-1) with ⟨heq, _⟩ | ⟨j, hj, heq, hε, _, _, _⟩
  · exact heq
  · exact absurd (h j hj) (by intro hc; linarith)

/-- If the scan returns a nonnegative index `i`, then `i` is in range, its
fractional part exceeds the tolerance, it attains the maximal fractional part,
and every earlier index has a strictly smaller fractional part. -/
theorem selectIdx_found (x : List ℚ) (i : ℕ) (h : selectIdx x = (i : ℤ)) :
    i < x.length ∧ eps < fr (x.getD i 0) ∧
      (∀ k, k < x.length → fr (x.getD k 0) ≤ fr (x.getD i 0)) ∧
      (∀ k, k < i → fr (x.getD k 0) < fr (x.getD i 0)) := by
  rcases selectAux_spec x 0 (-1) (-1) with ⟨heq, _⟩ | ⟨j, hj, heq, hε, _, hglob, hearl⟩
  · rw [selectIdx] at h; omega
  · rw [selectIdx] at h
    have hij : i = j := by omega
    subst hij
    refine ⟨hj, hε, ?_, ?_⟩
    · intro k hk
      rcases hglob k hk with hle | hle | hle
      · exact le_trans hle hε.le
      · exact absurd hle (by have := fr_nonneg (x.getD k 0); intro hc; linarith)
      · exact hle
    · intro k hk
      rcases hearl k hk with hle | hle | hle
      · exact lt_of_le_of_lt hle hε
      · exact absurd hle (by have := fr_nonneg (x.getD k 0); intro hc; linarith)
      · exact hle

/- ### Branch lemmas for one pass of the loop -/

theorem resolverAux_failure (solver : Solver) (fuel : ℕ) (st : PlanoDeCorte)
    (hs : solver st.c st.A st.b = SolverResult.failure) :
    resolverAux solver (fuel + 1) st =
      some ({ st with iteracion := st.iteracion + 1 }, none) := by
  rw [resolverAux, hs]

theorem resolverAux_success_integral (solver : Solver) (fuel : ℕ) (st : PlanoDeCorte)
    (x : List ℚ) (fval : ℚ)
    (hs : solver st.c st.A st.b = SolverResult.success x fval)
    (hint : es_entero x) :
    resolverAux solver (fuel + 1) st =
      some ({ st with iteracion := st.iteracion + 1 }, some (x, -fval)) := by
  rw [resolverAux, hs]
  simp only [if_pos hint]

theorem resolverAux_success_sentinel (solver : Solver) (fuel : ℕ) (st : PlanoDeCorte)
    (x : List ℚ) (fval : ℚ)
    (hs : solver st.c st.A st.b = SolverResult.success x fval)
    (hni : ¬ es_entero x) (hsel : selectIdx x = -1) :
    resolverAux solver (fuel + 1) st =
      some ({ st with iteracion := st.iteracion + 1 }, some (x, -fval)) := by
  rw [resolverAux, hs]
  simp only [if_neg hni, if_pos hsel]

theorem resolverAux_singular (solver : Solver) (fuel : ℕ) (st : PlanoDeCorte)
    (x : List ℚ) (fval : ℚ) (i : ℕ)
    (hs : solver st.c st.A st.b = SolverResult.success x fval)
    (hni : ¬ es_entero x) (hsel : selectIdx x = (i : ℤ))
    (hinv : matInv st.A = none) :
    resolverAux solver (fuel + 1) st =
      some ({ st with iteracion := st.iteracion + 1 }, none) := by
  rw [resolverAux, hs]
  simp only [if_neg hni, if_neg (show ¬ selectIdx x = -1 by omega), hinv]

theorem resolverAux_cut (solver : Solver) (fuel : ℕ) (st : PlanoDeCorte)
    (x : List ℚ) (fval : ℚ) (i : ℕ) (T : List (List ℚ))
    (hs : solver st.c st.A st.b = SolverResult.success x fval)
    (hni : ¬ es_entero x) (hsel : selectIdx x = (i : ℤ))
    (hinv : matInv st.A = some T) :
    resolverAux solver (fuel + 1) st =
      resolverAux solver fuel
        ⟨st.c, st.A ++ [((T.getD i []).map fr).map Neg.neg],
          st.b ++ [-(fr (x.getD i 0))], st.iteracion + 1⟩ := by
  rw [resolverAux, hs]
  simp only [if_neg hni, if_neg (show ¬ selectIdx x = -1 by omega), hinv, hsel,
    Int.toNat_natCast]
  rw [if_neg (show ¬ (i : ℤ) = -1 by omega)]

/- ### Facts about the modelled matrix inverse -/

theorem getD_map_finRange {α : Type} {k : ℕ} (f : Fin k → α) (d : α) (a : Fin k) :
    ((List.finRange k).map f).getD a d = f a := by
  have hlen : (a : ℕ) < ((List.finRange k).map f).length := by simp [a.isLt]
  rw [List.getD_eq_getElem _ _ hlen]
  simp

theorem matInv_eq_some (A T : List (List ℚ)) (h : matInv A = some T) :
    (A.all (fun r => r.length = A.length)) = true ∧
      (matG A A.length).det ≠ 0 ∧
      T = (List.finRange A.length).map (fun a => (List.finRange A.length).map fun b =>
        ((matG A A.length).det⁻¹ • (matG A A.length).adjugate) a b) := by
  rw [matInv] at h
  by_cases hsq : (A.all (fun r => r.length = A.length)) = true
  · rw [if_pos hsq, matInvAux] at h
    by_cases hd : (matG A A.length).det ≠ 0
    · rw [if_pos hd] at h
      exact ⟨hsq, hd, (Option.some.inj h).symm⟩
    · rw [if_neg hd] at h
      cases h
  · rw [if_neg hsq] at h
    cases h

/-- The rows delivered by `matInv` are exactly the entries of the matrix
inverse `(matG A k)⁻¹` of the square view of `A`. -/
theorem matInv_entries (A T : List (List ℚ)) (h : matInv A = some T)
    (a b : Fin A.length) :
    (T.getD a []).getD b 0 = (matG A A.length)⁻¹ a b := by
  obtain ⟨hsq, hd, hT⟩ := matInv_eq_some A T h
  subst hT
  rw [getD_map_finRange, getD_map_finRange, Matrix.inv_def, Ring.inverse_eq_inv]

theorem matInv_shape (A T : List (List ℚ)) (h : matInv A = some T) :
    T.length = A.length ∧ ∀ r ∈ T, r.length = A.length := by
  obtain ⟨hsq, hd, hT⟩ := matInv_eq_some A T h
  subst hT
  constructor
  · simp
  · intro r hr
    rw [List.mem_map] at hr
    obtain ⟨a, _, hra⟩ := hr
    rw [← hra]
    simp

theorem matInv_mul (A T : List (List ℚ)) (h : matInv A = some T) :
    matG A A.length * (matG A A.length)⁻¹ = 1 ∧
      (matG A A.length)⁻¹ * matG A A.length = 1 := by
  obtain ⟨hsq, hd, -⟩ := matInv_eq_some A T h
  exact ⟨Matrix.mul_nonsing_inv _ (isUnit_iff_ne_zero.mpr hd),
    Matrix.nonsing_inv_mul _ (isUnit_iff_ne_zero.mpr hd)⟩

/- ### Run-level lemmas -/

theorem exists_append_trans {α : Type} {l₁ l₂ l₃ : List α} (a : α)
    (h : l₃ = (l₁ ++ [a]) ++ l₂) : ∃ u, l₃ = l₁ ++ u :=
  ⟨[a] ++ l₂, by rw [h, List.append_assoc]⟩

/-- Whenever a run of the loop terminates (however it terminates), the final
constraint matrix and right-hand-side vector extend the initial ones by
appended entries only. -/
theorem resolverAux_extends (solver : Solver) :
    ∀ (fuel : ℕ) (st st' : PlanoDeCorte) (r : Option (List ℚ × ℚ)),
      resolverAux solver fuel st = some (st', r) →
      (∃ u, st'.A = st.A ++ u) ∧ (∃ w, st'.b = st.b ++ w) := by
  intro fuel
  induction fuel with
  | zero => intro st st' r h; cases h
  | succ fuel ih =>
    intro st st' r h
    rw [resolverAux] at h
    split at h
    · obtain ⟨h1, -⟩ := Prod.mk.injEq .. ▸ Option.some.inj h
      exact ⟨⟨[], by rw [← h1]; simp⟩, ⟨[], by rw [← h1]; simp⟩⟩
    · split at h
      · obtain ⟨h1, -⟩ := Prod.mk.injEq .. ▸ Option.some.inj h
        exact ⟨⟨[], by rw [← h1]; simp⟩, ⟨[], by rw [← h1]; simp⟩⟩
      · split at h
        · obtain ⟨h1, -⟩ := Prod.mk.injEq .. ▸ Option.some.inj h
          exact ⟨⟨[], by rw [← h1]; simp⟩, ⟨[], by rw [← h1]; simp⟩⟩
        · split at h
          · obtain ⟨h1, -⟩ := Prod.mk.injEq .. ▸ Option.some.inj h
            exact ⟨⟨[], by rw [← h1]; simp⟩, ⟨[], by rw [← h1]; simp⟩⟩
          · obtain ⟨⟨u, hu⟩, ⟨w, hw⟩⟩ := ih _ _ _ h
            exact ⟨exists_append_trans _ hu, exists_append_trans _ hw⟩

/-- Every cut appends exactly one row to `A` and one entry to `b`, so the row
count of `A` and the length of `b` stay equal along any terminating run. -/
theorem resolverAux_shape (solver : Solver) :
    ∀ (fuel : ℕ) (st st' : PlanoDeCorte) (r : Option (List ℚ × ℚ)),
      resolverAux solver fuel st = some (st', r) →
      st.A.length = st.b.length → st'.A.length = st'.b.length := by
  intro fuel
  induction fuel with
  | zero => intro st st' r h; cases h
  | succ fuel ih =>
    intro st st' r h hlen
    rw [resolverAux] at h
    split at h
    · obtain ⟨h1, -⟩ := Prod.mk.injEq .. ▸ Option.some.inj h
      rw [← h1]; exact hlen
    · split at h
      · obtain ⟨h1, -⟩ := Prod.mk.injEq .. ▸ Option.some.inj h
        rw [← h1]; exact hlen
      · split at h
        · obtain ⟨h1, -⟩ := Prod.mk.injEq .. ▸ Option.some.inj h
          rw [← h1]; exact hlen
        · split at h
          · obtain ⟨h1, -⟩ := Prod.mk.injEq .. ▸ Option.some.inj h
            rw [← h1]; exact hlen
          · exact ih _ _ _ h (by simp [hlen])

/-- If a run returns a success pair, every component of the returned vector is
within `eps` of `np.round` of itself (hence of an integer): the integrality
exit gives a strict bound, and the degenerate sentinel exit gives `fr ≤ eps`,
which also bounds the distance to the nearest integer. -/
theorem resolverAux_success_near_int (solver : Solver) :
    ∀ (fuel : ℕ) (st st' : PlanoDeCorte) (x : List ℚ) (obj : ℚ),
      resolverAux solver fuel st = some (st', some (x, obj)) →
      ∀ k, k < x.length → |x.getD k 0 - (npRound (x.getD k 0) : ℚ)| ≤ eps := by
  intro fuel
  induction fuel with
  | zero => intro st st' x obj h; cases h
  | succ fuel ih =>
    intro st st' x obj h
    rw [resolverAux] at h
    split at h
    · obtain ⟨-, h2⟩ := Prod.mk.injEq .. ▸ Option.some.inj h
      cases h2
    · rename_i solucion fval
      split at h
      · rename_i hint
        obtain ⟨-, h2⟩ := Prod.mk.injEq .. ▸ Option.some.inj h
        obtain ⟨h3, -⟩ := Prod.mk.injEq .. ▸ Option.some.inj h2
        subst h3
        intro k hk
        exact le_of_lt (hint _ (List.getD_eq_getElem _ _ hk ▸ List.getElem_mem hk))
      · split at h
        · rename_i hni hsel
          obtain ⟨-, h2⟩ := Prod.mk.injEq .. ▸ Option.some.inj h
          obtain ⟨h3, -⟩ := Prod.mk.injEq .. ▸ Option.some.inj h2
          subst h3
          intro k hk
          exact le_trans (npRound_dist_le_fr _) (selectIdx_sentinel _ hsel k hk)
        · split at h
          · obtain ⟨-, h2⟩ := Prod.mk.injEq .. ▸ Option.some.inj h
            cases h2
          · exact ih _ _ _ _ h

/- ### Concrete evaluation helpers -/

theorem floor_eval (v : ℚ) (n : ℤ) (h1 : (n : ℚ) ≤ v) (h2 : v < (n : ℚ) + 1) :
    ⌊v⌋ = n := by
  rw [Int.floor_eq_iff]
  exact ⟨h1, h2⟩

theorem fr_eval (v : ℚ) (n : ℤ) (h1 : (n : ℚ) ≤ v) (h2 : v < (n : ℚ) + 1) :
    fr v = v - (n : ℚ) := by
  rw [fr, floor_eval v n h1 h2]

theorem npRound_eval_lo (v : ℚ) (n : ℤ) (h1 : (n : ℚ) ≤ v) (h2 : v < (n : ℚ) + 1 / 2) :
    npRound v = n := by
  have hf : ⌊v⌋ = n := floor_eval v n h1 (by linarith)
  have hfr : fr v = v - (n : ℚ) := by rw [fr, hf]
  rw [npRound, if_pos (by rw [hfr]; linarith)]
  exact hf

theorem npRound_eval_hi (v : ℚ) (n : ℤ) (h1 : (n : ℚ) + 1 / 2 < v) (h2 : v < (n : ℚ) + 1) :
    npRound v = n + 1 := by
  have hf : ⌊v⌋ = n := floor_eval v n (by linarith) h2
  have hfr : fr v = v - (n : ℚ) := by rw [fr, hf]
  rw [npRound, if_neg (by rw [hfr]; linarith), if_pos (by rw [hfr]; linarith), hf]

theorem npRound_eval_tie (v : ℚ) (n : ℤ) (hv : v = (n : ℚ) + 1 / 2) :
    npRound v = if 2 ∣ n then n else n + 1 := by
  have hf : ⌊v⌋ = n := floor_eval v n (by rw [hv]; linarith) (by rw [hv]; linarith)
  have hfr : fr v = 1 / 2 := by rw [fr, hf, hv]; ring
  rw [npRound, if_neg (by rw [hfr]; linarith), if_neg (by rw [hfr]; linarith), hf]

theorem selectAux_nil (i : ℕ) (m : ℚ) (idx : ℤ) : selectAux [] i m idx = idx := rfl

theorem selectAux_update (v : ℚ) (t : List ℚ) (i : ℕ) (m : ℚ) (idx : ℤ)
    (h1 : eps < fr v) (h2 : m < fr v) :
    selectAux (v :: t) i m idx = selectAux t (i + 1) (fr v) (i : ℤ) := by
  rw [selectAux, if_pos h1, if_pos h2]

theorem selectAux_skip (v : ℚ) (t : List ℚ) (i : ℕ) (m : ℚ) (idx : ℤ)
    (h : ¬ (eps < fr v ∧ m < fr v)) :
    selectAux (v :: t) i m idx = selectAux t (i + 1) m idx := by
  by_cases h1 : eps < fr v
  · rw [selectAux, if_pos h1, if_neg (fun h2 => h ⟨h1, h2⟩)]
  · rw [selectAux, if_neg h1]

theorem fr_half : fr ((1 : ℚ) / 2) = 1 / 2 := by
  rw [fr_eval ((1 : ℚ) / 2) 0 (by norm_num) (by norm_num)]; norm_num

theorem fr_seven_halves : fr ((7 : ℚ) / 2) = 1 / 2 := by
  rw [fr_eval ((7 : ℚ) / 2) 3 (by norm_num) (by norm_num)]; norm_num

theorem fr_three_quarters : fr ((3 : ℚ) / 4) = 3 / 4 := by
  rw [fr_eval ((3 : ℚ) / 4) 0 (by norm_num) (by norm_num)]; norm_num

theorem es_entero_three : es_entero [(3 : ℚ)] := by
  intro v hv
  rw [List.mem_singleton] at hv
  subst hv
  rw [npRound_eval_lo 3 3 (by norm_num) (by norm_num)]
  norm_num [eps]

theorem not_es_entero_seven_halves : ¬ es_entero [(7 : ℚ) / 2] := by
  intro h
  have := h ((7 : ℚ) / 2) (List.mem_singleton.mpr rfl)
  rw [npRound_eval_tie ((7 : ℚ) / 2) 3 (by norm_num), if_neg (by omega), abs_lt] at this
  norm_num [eps] at this

theorem not_es_entero_halves : ¬ es_entero [(1 : ℚ) / 2, (1 : ℚ) / 2] := by
  intro h
  have := h ((1 : ℚ) / 2) (by simp)
  rw [npRound_eval_tie ((1 : ℚ) / 2) 0 (by norm_num), if_pos (by omega), abs_lt] at this
  norm_num [eps] at this

theorem selectIdx_seven_halves : selectIdx [(7 : ℚ) / 2] = ((0 : ℕ) : ℤ) := by
  rw [selectIdx,
    selectAux_update _ _ _ _ _ (by rw [fr_seven_halves]; norm_num [eps])
      (by rw [fr_seven_halves]; norm_num),
    selectAux_nil]

theorem selectIdx_halves : selectIdx [(1 : ℚ) / 2, (1 : ℚ) / 2] = ((0 : ℕ) : ℤ) := by
  rw [selectIdx,
    selectAux_update _ _ _ _ _ (by rw [fr_half]; norm_num [eps]) (by rw [fr_half]; norm_num),
    selectAux_skip _ _ _ _ _ (by rw [fr_half]; simp),
    selectAux_nil]

theorem matInv_two : matInv [[(2 : ℚ)]] = some [[1 / 2]] := by
  have hd : (matG [[(2 : ℚ)]] 1).det = 2 := by
    rw [Matrix.det_fin_one]; rfl
  have ha : (matG [[(2 : ℚ)]] 1).adjugate = 1 := Matrix.adjugate_fin_one _
  have hm : matInv [[(2 : ℚ)]] = matInvAux 1 [[(2 : ℚ)]] := rfl
  rw [hm, matInvAux, if_pos (by rw [hd]; norm_num), hd, ha]
  simp [List.finRange_succ, Matrix.smul_apply, Matrix.one_apply]

theorem matInv_row_two : matInv [[(1 : ℚ), 1]] = none := by
  rw [matInv]
  rfl

/- ### Concrete scenarios -/

/-- Scenario 2 of the spec: `c=[1]`, `A=[[2]]`, `b=[7]`. -/
def esc2St : PlanoDeCorte := ⟨[1], [[2]], [7], 0⟩

/-- A deterministic solver for scenario 2: the relaxation optimum of the
original one-constraint problem is `x=[3.5]` (`resultado.fun = -3.5` for the
minimized `-c·x`); after a cut has been appended it returns `x=[3]`. -/
def solverEsc2 : Solver := fun _ A _ =>
  if A.length = 1 then SolverResult.success [7 / 2] (-(7 / 2))
  else SolverResult.success [3] (-3)

/-- A solver whose first call already fails (scenario 3). -/
def solverFail : Solver := fun _ _ _ => SolverResult.failure

/-- A solver returning an integral optimum immediately (scenario 1 shape). -/
def solverInt : Solver := fun _ _ _ => SolverResult.success [3] (-3)

/-- A solver returning a fractional point, used with a non-square `A`
(scenario 4: the inversion step fails). -/
def solverHalf : Solver := fun _ _ _ => SolverResult.success [1 / 2, 1 / 2] 0

/-- State with a non-invertible (non-square) constraint matrix. -/
def singSt : PlanoDeCorte := ⟨[1, 1], [[1, 1]], [2], 0⟩

theorem esc2_solver_first :
    solverEsc2 esc2St.c esc2St.A esc2St.b = SolverResult.success [7 / 2] (-(7 / 2)) := rfl

/-- The full two-iteration run of scenario 2 with the solver above: the first
pass appends the tableau cut `(-1/2)·x ≤ -1/2` (not a bound cut `x ≤ 3`), and
the second pass accepts the integral point `[3]` with objective `3`. -/
theorem esc2_run :
    resolverAux solverEsc2 2 esc2St =
      some (⟨[1], [[2], [-(1 / 2)]], [7, -(1 / 2)], 2⟩, some ([3], 3)) := by
  have step1 := resolverAux_cut solverEsc2 1 esc2St [7 / 2] (-(7 / 2)) 0 [[1 / 2]]
    esc2_solver_first not_es_entero_seven_halves selectIdx_seven_halves matInv_two
  have hstate :
      (⟨esc2St.c, esc2St.A ++ [(([[(1 : ℚ) / 2]].getD 0 []).map fr).map Neg.neg],
        esc2St.b ++ [-(fr (([(7 : ℚ) / 2]).getD 0 0))], esc2St.iteracion + 1⟩ : PlanoDeCorte) =
      ⟨[1], [[2], [-(1 / 2)]], [7, -(1 / 2)], 1⟩ := by
    show (⟨[1], [[2]] ++ [([(1 : ℚ) / 2].map fr).map Neg.neg],
      [7] ++ [-(fr ((7 : ℚ) / 2))], 1⟩ : PlanoDeCorte) = _
    rw [show [(1 : ℚ) / 2].map fr = [(1 : ℚ) / 2] by rw [List.map_singleton, fr_half],
      fr_seven_halves]
    rfl
  rw [show (2 : ℕ) = 1 + 1 from rfl, step1, hstate,
    show (1 : ℕ) = 0 + 1 from rfl,
    resolverAux_success_integral solverEsc2 0 ⟨[1], [[2], [-(1 / 2)]], [7, -(1 / 2)], 1⟩
      [3] (-3) rfl es_entero_three]
  norm_num

/- ### Claim theorems -/

/-- C1: whenever `resolver` terminates with a success pair `(x, objective)`,
every component of `x` is within `eps = 1e-5` of an integer (its `np.round`),
for both success exits: the `es_entero` branch and the degenerate branch in
which the fractional-index scan returns the sentinel. -/
theorem integrality_on_success (solver : Solver) (fuel : ℕ) (st : PlanoDeCorte)
    (x : List ℚ) (obj : ℚ)
    (h : resolver solver fuel st = some (some (x, obj))) :
    ∀ k, k < x.length → |x.getD k 0 - (npRound (x.getD k 0) : ℚ)| ≤ eps := by
  rw [resolver] at h
  obtain ⟨⟨st', r⟩, hr, hsnd⟩ := Option.map_eq_some'.mp h
  cases hsnd
  exact resolverAux_success_near_int solver fuel st st' x obj hr

theorem integrality_on_success_witness :
    |([(3 : ℚ)]).getD 0 0 - (npRound (([(3 : ℚ)]).getD 0 0) : ℚ)| ≤ eps := by
  refine integrality_on_success solverInt 1 esc2St [3] 3 ?_ 0 (by norm_num)
  rw [resolver, show (1 : ℕ) = 0 + 1 from rfl,
    resolverAux_success_integral solverInt 0 esc2St [3] (-3) rfl es_entero_three]
  simp

/-- C2: in every iteration that generates a cut for the selected index `i`
with `matInv` succeeding on the current (square, invertible) `A`, the rows
delivered are exactly the entries of the matrix inverse `A⁻¹`, and the loop
continues on the state extended by the coefficient vector
`-(T_row - floor(T_row))` with right-hand side `-(x[i] - floor(x[i]))`. -/
theorem gomory_cut_formula (solver : Solver) (fuel : ℕ) (st : PlanoDeCorte)
    (x : List ℚ) (fval : ℚ) (i : ℕ) (T : List (List ℚ))
    (hs : solver st.c st.A st.b = SolverResult.success x fval)
    (hni : ¬ es_entero x) (hsel : selectIdx x = (i : ℤ))
    (hinv : matInv st.A = some T) :
    T.length = st.A.length ∧
    (∀ a b : Fin st.A.length, (T.getD a []).getD b 0 = (matG st.A st.A.length)⁻¹ a b) ∧
    matG st.A st.A.length * (matG st.A st.A.length)⁻¹ = 1 ∧
    resolverAux solver (fuel + 1) st =
      resolverAux solver fuel
        ⟨st.c, st.A ++ [(T.getD i []).map (fun t => -(t - (⌊t⌋ : ℚ)))],
          st.b ++ [-(x.getD i 0 - (⌊x.getD i 0⌋ : ℚ))], st.iteracion + 1⟩ := by
  obtain ⟨hTlen, -⟩ := matInv_shape st.A T hinv
  refine ⟨hTlen, fun a b => matInv_entries st.A T hinv a b,
    (matInv_mul st.A T hinv).1, ?_⟩
  rw [resolverAux_cut solver fuel st x fval i T hs hni hsel hinv]
  have hstate :
      (⟨st.c, st.A ++ [((T.getD i []).map fr).map Neg.neg],
        st.b ++ [-(fr (x.getD i 0))], st.iteracion + 1⟩ : PlanoDeCorte) =
      ⟨st.c, st.A ++ [(T.getD i []).map (fun t => -(t - (⌊t⌋ : ℚ)))],
        st.b ++ [-(x.getD i 0 - (⌊x.getD i 0⌋ : ℚ))], st.iteracion + 1⟩ := by
    have hfun : (Neg.neg ∘ fr) = (fun t : ℚ => -(t - (⌊t⌋ : ℚ))) := by
      funext t; simp [fr]
    rw [List.map_map, hfun, fr]
  rw [hstate]

theorem gomory_cut_formula_witness :
    [[(1 : ℚ) / 2]].length = esc2St.A.length ∧
    resolverAux solverEsc2 (1 + 1) esc2St =
      resolverAux solverEsc2 1
        ⟨esc2St.c, esc2St.A ++ [([[(1 : ℚ) / 2]].getD 0 []).map (fun t => -(t - (⌊t⌋ : ℚ)))],
          esc2St.b ++ [-(([(7 : ℚ) / 2]).getD 0 0 - (⌊([(7 : ℚ) / 2]).getD 0 0⌋ : ℚ))],
          esc2St.iteracion + 1⟩ :=
  have h := gomory_cut_formula solverEsc2 1 esc2St [7 / 2] (-(7 / 2)) 0 [[1 / 2]]
    esc2_solver_first not_es_entero_seven_halves selectIdx_seven_halves matInv_two
  ⟨h.1, h.2.2.2⟩

/-- C3: a run that fails — the solver does not return success, or `matInv`
fails on the current `A` when a cut is to be derived — returns `None`, and in
the singular case the final state carries the unchanged `A` and `b`: no cut
row and no right-hand side entry is appended. -/
theorem failure_yields_none (solver : Solver) (fuel : ℕ) (st : PlanoDeCorte) :
    (solver st.c st.A st.b = SolverResult.failure →
      resolver solver (fuel + 1) st = some none ∧
      resolverAux solver (fuel + 1) st =
        some ({ st with iteracion := st.iteracion + 1 }, none)) ∧
    (∀ (x : List ℚ) (fval : ℚ) (i : ℕ),
      solver st.c st.A st.b = SolverResult.success x fval →
      ¬ es_entero x → selectIdx x = (i : ℤ) → matInv st.A = none →
      resolver solver (fuel + 1) st = some none ∧
      resolverAux solver (fuel + 1) st =
        some ({ st with iteracion := st.iteracion + 1 }, none)) := by
  constructor
  · intro hf
    have h1 := resolverAux_failure solver fuel st hf
    exact ⟨by rw [resolver, h1]; rfl, h1⟩
  · intro x fval i hs hni hsel hinv
    have h1 := resolverAux_singular solver fuel st x fval i hs hni hsel hinv
    exact ⟨by rw [resolver, h1]; rfl, h1⟩

theorem failure_yields_none_witness :
    resolver solverFail (0 + 1) esc2St = some none ∧
    resolver solverHalf (0 + 1) singSt = some none :=
  ⟨((failure_yields_none solverFail 0 esc2St).1 rfl).1,
    ((failure_yields_none solverHalf 0 singSt).2 [1 / 2, 1 / 2] 0 0 rfl
      not_es_entero_halves selectIdx_halves matInv_row_two).1⟩

/-- C4: across any terminating run, the constraint matrix and the right-hand
side only grow by appended entries: the final `A` and `b` extend the initial
ones, whose rows and entries persist unchanged as the leading segment. -/
theorem constraints_append_only (solver : Solver) (fuel : ℕ) (st st' : PlanoDeCorte)
    (r : Option (List ℚ × ℚ)) (h : resolverAux solver fuel st = some (st', r)) :
    (∃ u, st'.A = st.A ++ u) ∧ (∃ w, st'.b = st.b ++ w) ∧
      st.A = st'.A.take st.A.length ∧ st.b = st'.b.take st.b.length := by
  obtain ⟨⟨u, hu⟩, ⟨w, hw⟩⟩ := resolverAux_extends solver fuel st st' r h
  exact ⟨⟨u, hu⟩, ⟨w, hw⟩, by rw [hu, List.take_left], by rw [hw, List.take_left]⟩

theorem constraints_append_only_witness :
    esc2St.A = ([[(2 : ℚ)], [-(1 / 2)]]).take esc2St.A.length ∧
    esc2St.b = ([(7 : ℚ), -(1 / 2)]).take esc2St.b.length :=
  have h := constraints_append_only solverEsc2 2 esc2St
    ⟨[1], [[2], [-(1 / 2)]], [7, -(1 / 2)], 2⟩ (some ([3], 3)) esc2_run
  ⟨h.2.2.1, h.2.2.2⟩

theorem fr_zero : fr (0 : ℚ) = 0 := by
  rw [fr_eval 0 0 (by norm_num) (by norm_num)]; norm_num

theorem fr_big : fr ((999999 : ℚ) / 1000000) = 999999 / 1000000 := by
  rw [fr_eval _ 0 (by norm_num) (by norm_num)]; norm_num

theorem es_entero_big : es_entero [(999999 : ℚ) / 1000000] := by
  intro v hv
  rw [List.mem_singleton] at hv
  subst hv
  rw [npRound_eval_hi _ 0 (by norm_num) (by norm_num), abs_lt]
  constructor <;> norm_num [eps]

theorem selectIdx_big : selectIdx [(999999 : ℚ) / 1000000] = ((0 : ℕ) : ℤ) := by
  rw [selectIdx,
    selectAux_update _ _ _ _ _ (by rw [fr_big]; norm_num [eps]) (by rw [fr_big]; norm_num),
    selectAux_nil]

theorem selectIdx_zero : selectIdx [(0 : ℚ)] = -1 := by
  rw [selectIdx, selectAux_skip _ _ _ _ _ (by rw [fr_zero]; norm_num [eps]), selectAux_nil]

theorem selectIdx_three_entries : selectIdx [(1 : ℚ) / 2, 3 / 4, 3 / 4] = ((1 : ℕ) : ℤ) := by
  rw [selectIdx,
    selectAux_update _ _ _ _ _ (by rw [fr_half]; norm_num [eps]) (by rw [fr_half]; norm_num),
    selectAux_update _ _ _ _ _ (by rw [fr_three_quarters]; norm_num [eps])
      (by rw [fr_half, fr_three_quarters]; norm_num),
    selectAux_skip _ _ _ _ _ (by rw [fr_three_quarters]; simp),
    selectAux_nil]

/-- C5 (counterexample): the claimed equivalence between `es_entero` being
false and the fractional-index scan finding an index fails at
`x = [999999/1000000]`: the component is within `1e-6` of the integer `1`, so
`es_entero` holds, yet its fractional part `0.999999` makes the scan return
index `0`. -/
theorem checker_selector_cex :
    ¬ ((¬ es_entero [(999999 : ℚ) / 1000000]) ↔
        selectIdx [(999999 : ℚ) / 1000000] ≠ -1) := by
  intro hiff
  exact hiff.mpr (by rw [selectIdx_big]; omega) es_entero_big

/-- C5 (amended): one direction of the consistency claim survives in each
form: if every fractional part is below `eps` then `es_entero` holds
(equivalently, `es_entero x = false` forces some fractional part `≥ eps`),
and if the scan returns the sentinel then every fractional part is `≤ eps`;
the claimed two-sided equivalence itself is false. -/
theorem checker_selector_amended (x : List ℚ) :
    ((∀ k, k < x.length → fr (x.getD k 0) < eps) → es_entero x) ∧
    (selectIdx x = -1 → ∀ k, k < x.length → fr (x.getD k 0) ≤ eps) := by
  constructor
  · intro h v hv
    rw [List.mem_iff_getElem] at hv
    obtain ⟨k, hk, hkv⟩ := hv
    have hlt := h k hk
    rw [List.getD_eq_getElem _ _ hk, hkv] at hlt
    exact lt_of_le_of_lt (npRound_dist_le_fr v) hlt
  · exact selectIdx_sentinel x

theorem checker_selector_amended_witness :
    es_entero [(0 : ℚ)] ∧ fr (([(0 : ℚ)]).getD 0 0) ≤ eps :=
  ⟨(checker_selector_amended [(0 : ℚ)]).1 (fun k hk => by
      rcases k with - | k
      · rw [show ([(0 : ℚ)]).getD 0 0 = 0 from rfl, fr_zero]
        norm_num [eps]
      · exact absurd hk (by simp)),
    (checker_selector_amended [(0 : ℚ)]).2 selectIdx_zero 0 (by norm_num)⟩

/-- C6: the fractional-index scan returns the sentinel exactly when every
fractional part is within tolerance; a returned index is in range, has
fractional part exceeding `eps = 1e-5`, attains the maximum fractional part,
and is the first index attaining it. -/
theorem selector_correct (x : List ℚ) :
    (selectIdx x = -1 ↔ ∀ k, k < x.length → fr (x.getD k 0) ≤ eps) ∧
    (∀ i : ℕ, selectIdx x = (i : ℤ) →
      i < x.length ∧ eps < fr (x.getD i 0) ∧
      (∀ k, k < x.length → fr (x.getD k 0) ≤ fr (x.getD i 0)) ∧
      (∀ k, k < i → fr (x.getD k 0) < fr (x.getD i 0))) :=
  ⟨⟨selectIdx_sentinel x, selectIdx_sentinel_of x⟩, fun i h => selectIdx_found x i h⟩

theorem selector_correct_witness :
    1 < ([(1 : ℚ) / 2, 3 / 4, 3 / 4]).length ∧
    eps < fr (([(1 : ℚ) / 2, 3 / 4, 3 / 4]).getD 1 0) :=
  have h := (selector_correct [(1 : ℚ) / 2, 3 / 4, 3 / 4]).2 1 selectIdx_three_entries
  ⟨h.1, h.2.1⟩

/-- C7: `es_entero` holds exactly when every component is at distance
strictly less than `eps = 1e-5` from some (hence from the nearest) integer;
the embedding is a pure function of its argument. -/
theorem es_entero_correct (x : List ℚ) :
    es_entero x ↔ ∀ k, k < x.length → ∃ n : ℤ, |x.getD k 0 - (n : ℚ)| < eps := by
  constructor
  · intro h k hk
    exact ⟨npRound (x.getD k 0), h _ (List.getD_eq_getElem _ _ hk ▸ List.getElem_mem hk)⟩
  · intro h v hv
    rw [List.mem_iff_getElem] at hv
    obtain ⟨k, hk, hkv⟩ := hv
    obtain ⟨n, hn⟩ := h k hk
    rw [List.getD_eq_getElem _ _ hk, hkv] at hn
    exact lt_of_le_of_lt (npRound_dist_le v n) hn

theorem es_entero_correct_witness : es_entero [(3 : ℚ)] :=
  (es_entero_correct [(3 : ℚ)]).mpr (fun k hk => by
    rcases k with - | k
    · exact ⟨3, by rw [show ([(3 : ℚ)]).getD 0 0 = 3 from rfl]; norm_num [eps]⟩
    · exact absurd hk (by simp))

/-- C8 (counterexample): on `c=[1]`, `A=[[2]]`, `b=[7]` with the scenario
solver, the code appends the tableau-inversion cut with coefficient row
`[-1/2]` and right-hand side `-1/2` — not the claimed bound-tightening cut
`x[0] ≤ 3` with coefficient row `[1]` and right-hand side `3`. -/
theorem scenario2_cex :
    resolverAux solverEsc2 2 esc2St =
      some (⟨[1], [[2], [-(1 / 2)]], [7, -(1 / 2)], 2⟩, some ([3], 3)) ∧
    ¬ ([[(2 : ℚ)], [-(1 / 2)]] = [[(2 : ℚ)], [1]] ∧
        [(7 : ℚ), -(1 / 2)] = [(7 : ℚ), 3]) :=
  ⟨esc2_run, by norm_num⟩

/-- C8 (amended): on `c=[1]`, `A=[[2]]`, `b=[7]`, given a solver returning the
relaxation optimum `[3.5]` (objective `3.5`) and, once a cut has been added,
`[3]` (objective `3`): the solution is not integral, index `0` is selected,
the appended cut is the Strategy-A tableau cut with coefficient vector
`[-1/2]` and right-hand side `-1/2`, and the run terminates successfully
returning `([3], 3)`. -/
theorem scenario2_strategyA_run :
    resolver solverEsc2 2 esc2St = some (some ([3], 3)) ∧
    resolverAux solverEsc2 2 esc2St =
      some (⟨[1], [[2], [-(1 / 2)]], [7, -(1 / 2)], 2⟩, some ([3], 3)) :=
  ⟨by rw [resolver, esc2_run]; rfl, esc2_run⟩

/-- C9: the row count of `A` equals the length of `b` after construction and
after every iteration: each generated cut appends exactly one row to `A` and
one entry to `b`, and terminating runs preserve the equality. -/
theorem shape_invariant (solver : Solver) (fuel : ℕ) (st : PlanoDeCorte) :
    (∀ (st1 st' : PlanoDeCorte) (r : Option (List ℚ × ℚ)),
      resolverAux solver fuel st1 = some (st', r) →
      st1.A.length = st1.b.length → st'.A.length = st'.b.length) ∧
    (∀ (x : List ℚ) (fval : ℚ) (i : ℕ) (T : List (List ℚ)),
      solver st.c st.A st.b = SolverResult.success x fval →
      ¬ es_entero x → selectIdx x = (i : ℤ) → matInv st.A = some T →
      resolverAux solver (fuel + 1) st =
        resolverAux solver fuel
          ⟨st.c, st.A ++ [((T.getD i []).map fr).map Neg.neg],
            st.b ++ [-(fr (x.getD i 0))], st.iteracion + 1⟩ ∧
      (st.A ++ [((T.getD i []).map fr).map Neg.neg]).length = st.A.length + 1 ∧
      (st.b ++ [-(fr (x.getD i 0))]).length = st.b.length + 1) := by
  refine ⟨fun st1 st' r h hl => resolverAux_shape solver fuel st1 st' r h hl, ?_⟩
  intro x fval i T hs hni hsel hinv
  exact ⟨resolverAux_cut solver fuel st x fval i T hs hni hsel hinv, by simp, by simp⟩

theorem shape_invariant_witness :
    ([[(2 : ℚ)], [-(1 / 2)]]).length = ([(7 : ℚ), -(1 / 2)]).length :=
  (shape_invariant solverEsc2 2 esc2St).1 esc2St
    ⟨[1], [[2], [-(1 / 2)]], [7, -(1 / 2)], 2⟩ (some ([3], 3)) esc2_run rfl

/-- C10: every appended cut has coefficients in `[-1, 0]` (each is the negated
fractional part of a tableau entry) and a strictly negative right-hand side,
namely minus the selected component's fractional part, which exceeds
`eps = 1e-5`. -/
theorem cut_range (solver : Solver) (fuel : ℕ) (st : PlanoDeCorte)
    (x : List ℚ) (fval : ℚ) (i : ℕ) (T : List (List ℚ))
    (hs : solver st.c st.A st.b = SolverResult.success x fval)
    (hni : ¬ es_entero x) (hsel : selectIdx x = (i : ℤ))
    (hinv : matInv st.A = some T) :
    (∀ q ∈ ((T.getD i []).map fr).map Neg.neg, -1 ≤ q ∧ q ≤ 0) ∧
    eps < fr (x.getD i 0) ∧
    -(fr (x.getD i 0)) < 0 ∧
    resolverAux solver (fuel + 1) st =
      resolverAux solver fuel
        ⟨st.c, st.A ++ [((T.getD i []).map fr).map Neg.neg],
          st.b ++ [-(fr (x.getD i 0))], st.iteracion + 1⟩ := by
  have hfrac := (selectIdx_found x i hsel).2.1
  have heps : (0 : ℚ) < eps := by norm_num [eps]
  refine ⟨?_, hfrac, by linarith,
    resolverAux_cut solver fuel st x fval i T hs hni hsel hinv⟩
  intro q hq
  rw [List.mem_map] at hq
  obtain ⟨p, hp, hpq⟩ := hq
  rw [List.mem_map] at hp
  obtain ⟨t, ht, htp⟩ := hp
  subst hpq
  subst htp
  exact ⟨by linarith [fr_lt_one t], by linarith [fr_nonneg t]⟩

theorem cut_range_witness :
    eps < fr (([(7 : ℚ) / 2]).getD 0 0) ∧ -(fr (([(7 : ℚ) / 2]).getD 0 0)) < 0 :=
  have h := cut_range solverEsc2 1 esc2St [7 / 2] (-(7 / 2)) 0 [[1 / 2]]
    esc2_solver_first not_es_entero_seven_halves selectIdx_seven_halves matInv_two
  ⟨h.2.1, h.2.2.1⟩
